import Mathlib

/-!
Verification of the retrieval-and-chunking pipeline of the ragApp repository.

Strings are modelled as `List Char`. The Python regex character classes used by
`src/utils/text_processing.py` are modelled over their ASCII extension
(`\s` as the six ASCII whitespace characters, `\w` as ASCII letters, digits and
underscore); rational numbers stand in for Python floats, and the external
embedding provider and the ChromaDB vector index are modelled as explicit
parameters and explicit list-valued state.
-/

namespace RagApp

/-- Python regex class `\s` (ASCII range): space, tab, newline, carriage
return, vertical tab, form feed. -/
def isPySpace (c : Char) : Bool :=
  c == ' ' || c == '\t' || c == '\n' || c == '\r' || c == '\x0b' || c == '\x0c'

/-- Python regex class `\w` (ASCII range): letters, digits and underscore. -/
def isPyWord (c : Char) : Bool :=
  c.isAlpha || c.isDigit || c == '_'

/-- The punctuation kept by the allow-list regex of
`TextProcessor.clean_text`: `. , ! ? ; : - ( ) [ ] \x7b \x7d " '`. -/
def keptPunct : List Char :=
  ['.', ',', '!', '?', ';', ':', '-', '(', ')', '[', ']', '\x7b', '\x7d', '\"', '\'']

/-- A character matching the allow-list class `[\w\s.,!?;:\-()\[\]\x7b\x7d"']`
of `clean_text`'s final substitution. -/
def allowedChar (c : Char) : Bool :=
  isPyWord c || isPySpace c || keptPunct.contains c

/-- The substitution `re.sub(r'\s+', ' ', text)` of `clean_text` (line 13 of
`text_processing.py`): every maximal run of whitespace becomes one space. -/
def collapseWs : List Char → List Char
  | [] => []
  | [c] => if isPySpace c then [' '] else [c]
  | c :: d :: cs =>
    if isPySpace c then
      if isPySpace d then collapseWs (d :: cs)
      else ' ' :: collapseWs (d :: cs)
    else c :: collapseWs (d :: cs)

/-- The substitution `re.sub(r'\n+', '\n', text)` of `clean_text` (line 14):
every maximal run of newlines becomes one newline. -/
def collapseNl : List Char → List Char
  | [] => []
  | [c] => [c]
  | c :: d :: cs =>
    if c == '\n' && d == '\n' then collapseNl (d :: cs)
    else c :: collapseNl (d :: cs)

/-- Python `str.strip()`: remove leading and trailing whitespace. -/
def pyStrip (l : List Char) : List Char :=
  (l.dropWhile isPySpace).rdropWhile isPySpace

/-- `TextProcessor.clean_text`: collapse whitespace runs, collapse newline
runs, strip, then delete every character outside the allow-list. -/
def clean_text (l : List Char) : List Char :=
  (pyStrip (collapseNl (collapseWs l))).filter allowedChar

/-! Unfolding lemmas for the two-character-lookahead recursions. -/

theorem collapseWs_one_pos {c : Char} (h : isPySpace c = true) :
    collapseWs [c] = [' '] := by rw [collapseWs, if_pos h]

theorem collapseWs_one_neg {c : Char} (h : ¬ isPySpace c = true) :
    collapseWs [c] = [c] := by rw [collapseWs, if_neg h]

theorem collapseWs_two_pos_pos {c d : Char} {cs : List Char}
    (h1 : isPySpace c = true) (h2 : isPySpace d = true) :
    collapseWs (c :: d :: cs) = collapseWs (d :: cs) := by
  rw [collapseWs, if_pos h1, if_pos h2]

theorem collapseWs_two_pos_neg {c d : Char} {cs : List Char}
    (h1 : isPySpace c = true) (h2 : ¬ isPySpace d = true) :
    collapseWs (c :: d :: cs) = ' ' :: collapseWs (d :: cs) := by
  rw [collapseWs, if_pos h1, if_neg h2]

theorem collapseWs_two_neg {c d : Char} {cs : List Char}
    (h1 : ¬ isPySpace c = true) :
    collapseWs (c :: d :: cs) = c :: collapseWs (d :: cs) := by
  rw [collapseWs, if_neg h1]

theorem collapseNl_two_pos {c d : Char} {cs : List Char}
    (h : (c == '\n' && d == '\n') = true) :
    collapseNl (c :: d :: cs) = collapseNl (d :: cs) := by
  rw [collapseNl, if_pos h]

theorem collapseNl_two_neg {c d : Char} {cs : List Char}
    (h : ¬ (c == '\n' && d == '\n') = true) :
    collapseNl (c :: d :: cs) = c :: collapseNl (d :: cs) := by
  rw [collapseNl, if_neg h]

/-! Lemmas about the whitespace-collapsing pass. -/

theorem collapseWs_ne_nil : ∀ l : List Char, l ≠ [] → collapseWs l ≠ [] := by
  intro l
  induction l using collapseWs.induct with
  | case1 => intro h; exact absurd rfl h
  | case2 c h => intro _; rw [collapseWs_one_pos h]; simp
  | case3 c h => intro _; rw [collapseWs_one_neg h]; simp
  | case4 c d cs h1 h2 ih =>
    intro _
    rw [collapseWs_two_pos_pos h1 h2]
    exact ih (by simp)
  | case5 c d cs h1 h2 ih =>
    intro _
    rw [collapseWs_two_pos_neg h1 h2]
    simp
  | case6 c d cs h1 ih =>
    intro _
    rw [collapseWs_two_neg h1]
    simp

theorem collapseWs_cons_of_neg {d : Char} (cs : List Char)
    (hd : ¬ isPySpace d = true) :
    ∃ rest, collapseWs (d :: cs) = d :: rest := by
  cases cs with
  | nil => exact ⟨[], collapseWs_one_neg hd⟩
  | cons e cs' => exact ⟨collapseWs (e :: cs'), collapseWs_two_neg hd⟩

theorem mem_collapseWs {c : Char} : ∀ {l : List Char}, c ∈ collapseWs l →
    c = ' ' ∨ (c ∈ l ∧ isPySpace c = false) := by
  intro l
  induction l using collapseWs.induct with
  | case1 => intro h; simp [collapseWs] at h
  | case2 a h =>
    intro hm
    rw [collapseWs_one_pos h] at hm
    exact Or.inl (by simpa using hm)
  | case3 a h =>
    intro hm
    rw [collapseWs_one_neg h] at hm
    simp at hm
    exact Or.inr ⟨by simp [hm], by subst hm; simpa using h⟩
  | case4 a d cs h1 h2 ih =>
    intro hm
    rw [collapseWs_two_pos_pos h1 h2] at hm
    rcases ih hm with h | ⟨hmem, hws⟩
    · exact Or.inl h
    · exact Or.inr ⟨List.mem_cons_of_mem _ hmem, hws⟩
  | case5 a d cs h1 h2 ih =>
    intro hm
    rw [collapseWs_two_pos_neg h1 h2] at hm
    rcases List.mem_cons.mp hm with h | h
    · exact Or.inl h
    · rcases ih h with h' | ⟨hmem, hws⟩
      · exact Or.inl h'
      · exact Or.inr ⟨List.mem_cons_of_mem _ hmem, hws⟩
  | case6 a d cs h1 ih =>
    intro hm
    rw [collapseWs_two_neg h1] at hm
    rcases List.mem_cons.mp hm with h | h
    · subst h
      exact Or.inr ⟨List.mem_cons_self _ _, by simpa using h1⟩
    · rcases ih h with h' | ⟨hmem, hws⟩
      · exact Or.inl h'
      · exact Or.inr ⟨List.mem_cons_of_mem _ hmem, hws⟩

theorem newline_not_mem_collapseWs (l : List Char) : '\n' ∉ collapseWs l := by
  intro hm
  rcases mem_collapseWs hm with h | ⟨_, hws⟩
  · exact absurd h (by decide)
  · exact absurd hws (by simp [isPySpace])

theorem collapseNl_eq_self : ∀ {l : List Char}, '\n' ∉ l → collapseNl l = l := by
  intro l
  induction l using collapseNl.induct with
  | case1 => intro _; rfl
  | case2 c => intro _; rfl
  | case3 c d cs h ih =>
    intro hn
    simp only [Bool.and_eq_true, beq_iff_eq] at h
    exact absurd (by simp [h.1]) hn
  | case4 c d cs h ih =>
    intro hn
    rw [collapseNl_two_neg h]
    congr 1
    exact ih (fun hmem => hn (List.mem_cons_of_mem _ hmem))

theorem collapseWs_idem : ∀ l : List Char, collapseWs (collapseWs l) = collapseWs l := by
  intro l
  induction l using collapseWs.induct with
  | case1 => rfl
  | case2 c h =>
    rw [collapseWs_one_pos h, collapseWs_one_pos (by decide)]
  | case3 c h =>
    rw [collapseWs_one_neg h, collapseWs_one_neg h]
  | case4 c d cs h1 h2 ih =>
    rw [collapseWs_two_pos_pos h1 h2]
    exact ih
  | case5 c d cs h1 h2 ih =>
    obtain ⟨rest, hr⟩ := collapseWs_cons_of_neg cs h2
    rw [collapseWs_two_pos_neg h1 h2, hr]
    rw [hr] at ih
    rw [collapseWs_two_pos_neg (by decide) h2, ih]
  | case6 c d cs h1 ih =>
    have hne := collapseWs_ne_nil (d :: cs) (by simp)
    cases hm : collapseWs (d :: cs) with
    | nil => exact absurd hm hne
    | cons e m' =>
      rw [hm] at ih
      rw [collapseWs_two_neg h1, hm, collapseWs_two_neg h1, ih]

/-- Boolean canonical-form checker: every whitespace character is a plain
space and no two adjacent characters are both whitespace. -/
def wsCanon : List Char → Bool
  | [] => true
  | [c] => !(isPySpace c) || c == ' '
  | c :: d :: cs => (!(isPySpace c) || (c == ' ' && !(isPySpace d))) && wsCanon (d :: cs)

theorem wsCanon_two {c d : Char} {cs : List Char} :
    wsCanon (c :: d :: cs) =
      ((!(isPySpace c) || (c == ' ' && !(isPySpace d))) && wsCanon (d :: cs)) := by
  rw [wsCanon]

theorem wsCanon_tail {c : Char} {cs : List Char} (h : wsCanon (c :: cs) = true) :
    wsCanon cs = true := by
  cases cs with
  | nil => rfl
  | cons d cs' =>
    rw [wsCanon_two] at h
    simp only [Bool.and_eq_true] at h
    exact h.2

theorem wsCanon_collapseWs : ∀ l : List Char, wsCanon (collapseWs l) = true := by
  intro l
  induction l using collapseWs.induct with
  | case1 => rfl
  | case2 c h => rw [collapseWs_one_pos h]; rfl
  | case3 c h => rw [collapseWs_one_neg h]; simp [wsCanon, h]
  | case4 c d cs h1 h2 ih =>
    rw [collapseWs_two_pos_pos h1 h2]
    exact ih
  | case5 c d cs h1 h2 ih =>
    obtain ⟨rest, hr⟩ := collapseWs_cons_of_neg cs h2
    rw [collapseWs_two_pos_neg h1 h2, hr]
    rw [hr] at ih
    rw [wsCanon_two]
    simp only [ih, Bool.and_true]
    simp [h2]
  | case6 c d cs h1 ih =>
    have hne := collapseWs_ne_nil (d :: cs) (by simp)
    cases hm : collapseWs (d :: cs) with
    | nil => exact absurd hm hne
    | cons e m' =>
      rw [hm] at ih
      rw [collapseWs_two_neg h1, hm, wsCanon_two]
      simp only [ih, Bool.and_true]
      simp [h1]

theorem collapseWs_eq_self_of_canon : ∀ {l : List Char}, wsCanon l = true →
    collapseWs l = l := by
  intro l
  induction l using collapseWs.induct with
  | case1 => intro _; rfl
  | case2 c h =>
    intro hc
    rw [wsCanon] at hc
    simp only [h, Bool.not_true, Bool.false_or, beq_iff_eq] at hc
    rw [collapseWs_one_pos h, hc]
  | case3 c h => intro _; exact collapseWs_one_neg h
  | case4 c d cs h1 h2 ih =>
    intro hc
    rw [wsCanon_two] at hc
    simp only [h1, h2, Bool.not_true, Bool.false_or, Bool.and_eq_true, beq_iff_eq,
      Bool.not_eq_true'] at hc
    exact absurd hc.1.2 (by simp [h2])
  | case5 c d cs h1 h2 ih =>
    intro hc
    rw [wsCanon_two] at hc
    simp only [h1, Bool.not_true, Bool.false_or, Bool.and_eq_true, beq_iff_eq] at hc
    rw [collapseWs_two_pos_neg h1 h2, ih hc.2, hc.1.1]
  | case6 c d cs h1 ih =>
    intro hc
    rw [collapseWs_two_neg h1, ih (wsCanon_tail hc)]

theorem wsCanon_of_append : ∀ (l₁ l₂ : List Char), wsCanon (l₁ ++ l₂) = true →
    wsCanon l₁ = true := by
  intro l₁
  induction l₁ with
  | nil => intro _ _; rfl
  | cons c l₁' ih =>
    intro l₂ h
    cases l₁' with
    | nil =>
      cases l₂ with
      | nil => simpa using h
      | cons e l₂' =>
        simp only [List.cons_append, List.nil_append] at h
        rw [wsCanon_two] at h
        simp only [Bool.and_eq_true, Bool.or_eq_true] at h
        rw [wsCanon]
        rcases h.1 with h' | h'
        · simp [h']
        · simp [h'.1]
    | cons d l₁'' =>
      simp only [List.cons_append] at h
      rw [wsCanon_two] at h
      simp only [Bool.and_eq_true] at h
      rw [wsCanon_two]
      simp only [Bool.and_eq_true]
      exact ⟨h.1, ih l₂ (by simpa using h.2)⟩

/-- Head-condition helper: the list is empty or its head fails `p`. -/
def headOk (p : Char → Bool) : List Char → Prop
  | [] => True
  | c :: _ => p c = false

theorem headOk_dropWhile (p : Char → Bool) : ∀ l : List Char, headOk p (l.dropWhile p) := by
  intro l
  induction l with
  | nil => trivial
  | cons c cs ih =>
    rw [List.dropWhile_cons]
    by_cases h : p c = true
    · simpa [h] using ih
    · simp only [h, if_false]
      simp only [headOk]
      simpa using h

theorem dropWhile_eq_self_of_headOk {p : Char → Bool} : ∀ {l : List Char},
    headOk p l → l.dropWhile p = l := by
  intro l h
  cases l with
  | nil => rfl
  | cons c cs =>
    rw [List.dropWhile_cons]
    simp only [headOk] at h
    simp [h]

theorem headOk_of_isPrefix {p : Char → Bool} {l₁ l₂ : List Char}
    (hpre : l₁ <+: l₂) (h : headOk p l₂) : headOk p l₁ := by
  obtain ⟨t, ht⟩ := hpre
  cases l₁ with
  | nil => trivial
  | cons c cs =>
    subst ht
    simpa [headOk] using h

theorem rdropWhile_isPrefix (p : Char → Bool) (l : List Char) :
    l.rdropWhile p <+: l :=
  List.rdropWhile_prefix p l

theorem rdropWhile_is_sublist (p : Char → Bool) (l : List Char) :
    (l.rdropWhile p).Sublist l :=
  (rdropWhile_isPrefix p l).sublist

theorem pyStrip_sublist (l : List Char) : (pyStrip l).Sublist l :=
  (rdropWhile_is_sublist isPySpace _).trans (List.dropWhile_suffix isPySpace).sublist

theorem pyStrip_idem (l : List Char) : pyStrip (pyStrip l) = pyStrip l := by
  unfold pyStrip
  have h1 : headOk isPySpace ((l.dropWhile isPySpace).rdropWhile isPySpace) :=
    headOk_of_isPrefix (rdropWhile_isPrefix _ _) (headOk_dropWhile isPySpace l)
  rw [dropWhile_eq_self_of_headOk h1, List.rdropWhile_idempotent]

theorem wsCanon_dropWhile {l : List Char} (h : wsCanon l = true) :
    wsCanon (l.dropWhile isPySpace) = true := by
  cases l with
  | nil => rfl
  | cons c cs =>
    rw [List.dropWhile_cons]
    by_cases hc : isPySpace c = true
    · simp only [hc, if_true]
      cases cs with
      | nil => rfl
      | cons d cs' =>
        rw [wsCanon_two] at h
        simp only [Bool.and_eq_true] at h
        rcases h with ⟨h1, h2⟩
        simp only [hc, Bool.not_true, Bool.false_or, Bool.and_eq_true, beq_iff_eq,
          Bool.not_eq_true'] at h1
        rw [List.dropWhile_cons]
        simp only [h1.2, if_false]
        exact h2
    · simp only [hc, if_false]
      exact h

theorem wsCanon_pyStrip {l : List Char} (h : wsCanon l = true) :
    wsCanon (pyStrip l) = true := by
  unfold pyStrip
  have h1 := wsCanon_dropWhile h
  obtain ⟨t, ht⟩ := rdropWhile_isPrefix isPySpace (l.dropWhile isPySpace)
  exact wsCanon_of_append _ t (by rw [ht]; exact h1)

/-! Claim theorems about the normalizer (`clean_text`). -/

/-- C7: for every input string, every character of `clean_text`'s output lies
in the allow-list (word characters, whitespace and the fixed punctuation set);
every character outside it is deleted by the final substitution, so none can
reach the output. -/
theorem clean_text_only_allowed_chars (l : List Char) :
    ∀ c ∈ clean_text l, allowedChar c = true := by
  intro c hc
  exact (List.mem_filter.mp hc).2

theorem clean_text_only_allowed_chars_witness : allowedChar 'a' = true :=
  clean_text_only_allowed_chars ['a', 'b'] 'a' (by decide)

/-- C10: the first substitution of `clean_text` replaces every whitespace run
(including every newline) by a single space, so the newline-collapsing second
substitution acts on a newline-free string and is a no-op, and the final
output of `clean_text` contains no newline character. -/
theorem clean_text_no_newline (l : List Char) :
    collapseNl (collapseWs l) = collapseWs l ∧ '\n' ∉ clean_text l := by
  refine ⟨collapseNl_eq_self (newline_not_mem_collapseWs l), ?_⟩
  intro hm
  have h1 : '\n' ∈ pyStrip (collapseNl (collapseWs l)) := (List.mem_filter.mp hm).1
  rw [collapseNl_eq_self (newline_not_mem_collapseWs l)] at h1
  exact newline_not_mem_collapseWs l ((pyStrip_sublist _).subset h1)

theorem clean_text_no_newline_witness :
    collapseNl (collapseWs ['a', '\n', 'b']) = collapseWs ['a', '\n', 'b'] ∧
      '\n' ∉ clean_text ['a', '\n', 'b'] :=
  clean_text_no_newline ['a', '\n', 'b']

/-- C6 counterexample: `clean_text` is not idempotent.  On the string
`"a @ b"` the first pass deletes `'@'` and leaves the two spaces around it,
producing `"a  b"`; a second pass collapses the double space to `"a b"`. -/
theorem clean_text_not_idempotent :
    clean_text (clean_text ['a', ' ', '@', ' ', 'b']) ≠
      clean_text ['a', ' ', '@', ' ', 'b'] := by decide

/-- C6 amended: `clean_text` is idempotent on every input whose characters all
lie in the allow-list; only the deletion of a disallowed character can create
the fresh whitespace run that makes a second pass differ. -/
theorem clean_text_idem_of_allowed (l : List Char)
    (hl : ∀ c ∈ l, allowedChar c = true) :
    clean_text (clean_text l) = clean_text l := by
  have hnl := newline_not_mem_collapseWs l
  have h1 : collapseNl (collapseWs l) = collapseWs l := collapseNl_eq_self hnl
  have hz_allowed : ∀ c ∈ pyStrip (collapseWs l), allowedChar c = true := by
    intro c hc
    rcases mem_collapseWs ((pyStrip_sublist _).subset hc) with h | ⟨hmem, _⟩
    · subst h; decide
    · exact hl c hmem
  have e1 : clean_text l = pyStrip (collapseWs l) := by
    unfold clean_text
    rw [h1]
    exact List.filter_eq_self.mpr hz_allowed
  have hcanon : wsCanon (pyStrip (collapseWs l)) = true :=
    wsCanon_pyStrip (wsCanon_collapseWs l)
  have hz_nonl : '\n' ∉ pyStrip (collapseWs l) :=
    fun hm => hnl ((pyStrip_sublist _).subset hm)
  rw [e1]
  unfold clean_text
  rw [collapseWs_eq_self_of_canon hcanon, collapseNl_eq_self hz_nonl,
    pyStrip_idem, List.filter_eq_self.mpr hz_allowed]

theorem clean_text_idem_of_allowed_witness :
    clean_text (clean_text ['a', ' ', 'b']) = clean_text ['a', ' ', 'b'] :=
  clean_text_idem_of_allowed ['a', ' ', 'b'] (by decide)

/-! Embedding of `src/services/retrieval_service.py` (`RetrievalService`).
Python floats (distances, similarity scores) are modelled as rationals; the
ChromaDB collection is explicit list-valued state, and the external embedding
provider and uuid generator are explicit parameters. -/

/-- One hit as returned by the vector index's `query` call: document content,
metadata and cosine distance. -/
structure IndexHit (μ : Type) where
  content : List Char
  metadata : μ
  distance : ℚ

/-- `RetrievedDocument` of `src/models/schemas.py`: content, metadata and
similarity score. -/
structure RetrievedDocument (μ : Type) where
  content : List Char
  metadata : μ
  similarity_score : ℚ

/-- The per-hit conversion of `retrieve_documents`:
`similarity_score = 1 - distance`. -/
def toRetrieved {μ : Type} (e : IndexHit μ) : RetrievedDocument μ :=
  ⟨e.content, e.metadata, 1 - e.distance⟩

/-- The result-processing loop of `RetrievalService.retrieve_documents`
(lines 94-117): for each hit returned by the index, in order, compute the
similarity `1 - distance` and append the converted record iff the similarity
clears the threshold. -/
def retrieve_documents {μ : Type} (threshold : ℚ) :
    List (IndexHit μ) → List (RetrievedDocument μ)
  | [] => []
  | e :: es =>
    if threshold ≤ 1 - e.distance then
      toRetrieved e :: retrieve_documents threshold es
    else retrieve_documents threshold es

theorem retrieve_documents_eq_filter {μ : Type} (threshold : ℚ)
    (rs : List (IndexHit μ)) :
    retrieve_documents threshold rs =
      (rs.map toRetrieved).filter (fun d => threshold ≤ d.similarity_score) := by
  induction rs with
  | nil => rfl
  | cons e es ih =>
    rw [retrieve_documents]
    by_cases h : threshold ≤ 1 - e.distance
    · rw [if_pos h]
      simp only [List.map_cons, List.filter_cons, ih]
      have : (threshold ≤ (toRetrieved e).similarity_score) = True := by
        simp [toRetrieved, h]
      simp [toRetrieved, h]
    · rw [if_neg h]
      simp only [List.map_cons, List.filter_cons, ih]
      simp [toRetrieved, h]

/-- C1: when the index returns its hits ordered by ascending distance, the
sequence returned by `retrieve_documents` is ordered by descending similarity
score, every returned match is the `1 - distance` conversion of an index hit,
and the returned sequence is exactly the order-preserving threshold filter of
the converted hit sequence (filtering never reorders). -/
theorem retrieve_documents_ordering {μ : Type} (threshold : ℚ)
    (rs : List (IndexHit μ))
    (hsorted : rs.Pairwise (fun a b => a.distance ≤ b.distance)) :
    (retrieve_documents threshold rs).Pairwise
        (fun a b => b.similarity_score ≤ a.similarity_score) ∧
      (∀ d ∈ retrieve_documents threshold rs, ∃ e ∈ rs, d = toRetrieved e) ∧
      retrieve_documents threshold rs =
        (rs.map toRetrieved).filter (fun d => threshold ≤ d.similarity_score) := by
  refine ⟨?_, ?_, retrieve_documents_eq_filter threshold rs⟩
  · rw [retrieve_documents_eq_filter]
    have hmap : (rs.map toRetrieved).Pairwise
        (fun a b => b.similarity_score ≤ a.similarity_score) := by
      refine List.Pairwise.map toRetrieved ?_ hsorted
      intro a b hab
      simpa [toRetrieved] using sub_le_sub_left hab 1
    exact hmap.sublist (List.filter_sublist _)
  · intro d hd
    rw [retrieve_documents_eq_filter] at hd
    obtain ⟨e, he, rfl⟩ := List.mem_map.mp (List.mem_of_mem_filter hd)
    exact ⟨e, he, rfl⟩

theorem retrieve_documents_ordering_witness :
    (retrieve_documents (0 : ℚ)
        [(⟨['a'], (), 0⟩ : IndexHit Unit), ⟨['b'], (), 1⟩]).Pairwise
      (fun a b => b.similarity_score ≤ a.similarity_score) :=
  (retrieve_documents_ordering 0 _ (by norm_num [List.pairwise_cons])).1

/-- C2: retrieval filtering is monotonic in the threshold: for the same query
result and a higher threshold the returned sequence is a sublist — hence a
subset, and never larger — of the one returned with the lower threshold. -/
theorem retrieve_documents_threshold_monotone {μ : Type} (t₁ t₂ : ℚ)
    (rs : List (IndexHit μ)) (h : t₁ ≤ t₂) :
    (retrieve_documents t₂ rs).Sublist (retrieve_documents t₁ rs) ∧
      (∀ d ∈ retrieve_documents t₂ rs, d ∈ retrieve_documents t₁ rs) ∧
      (retrieve_documents t₂ rs).length ≤ (retrieve_documents t₁ rs).length := by
  have hsub : (retrieve_documents t₂ rs).Sublist (retrieve_documents t₁ rs) := by
    rw [retrieve_documents_eq_filter, retrieve_documents_eq_filter]
    refine List.monotone_filter_right _ ?_
    intro d hd
    simp only [decide_eq_true_eq] at hd ⊢
    exact le_trans h hd
  exact ⟨hsub, fun d hd => hsub.subset hd, hsub.length_le⟩

theorem retrieve_documents_threshold_monotone_witness :
    (retrieve_documents (1 : ℚ) [(⟨['a'], (), 0⟩ : IndexHit Unit)]).Sublist
      (retrieve_documents (0 : ℚ) [(⟨['a'], (), 0⟩ : IndexHit Unit)]) :=
  (retrieve_documents_threshold_monotone 0 1 _ (by norm_num)).1

/-- Metadata values handed to the vector store; lists are the only compound
values and are the target of `add_documents`'s sanitisation. -/
inductive MetaValue
  | str : List Char → MetaValue
  | num : ℤ → MetaValue
  | strs : List (List Char) → MetaValue

/-- Sanitisation of one metadata mapping (lines 50-58 of
`retrieval_service.py`): a list value is joined into one comma-separated
string, every other value is kept as is. -/
def sanitize_metadata (m : List (List Char × MetaValue)) :
    List (List Char × MetaValue) :=
  m.map fun kv =>
    match kv.2 with
    | MetaValue.strs vs => (kv.1, MetaValue.str (List.intercalate [',', ' '] vs))
    | v => (kv.1, v)

/-- One persisted record of the vector index: generated id, document text,
embedding vector and sanitised metadata. -/
structure IndexedRecord where
  id : List Char
  document : List Char
  embedding : List ℚ
  metadata : List (List Char × MetaValue)

/-- `RetrievalService.add_documents` (lines 39-73), with the embedding
provider, the generated uuids and the current collection state passed
explicitly.  The whole batch is embedded first; only if that call succeeds
are the records appended to the collection by `collection.add`.  A failing
embedding call is re-raised as a wrapped exception.  Returns the collection
state after the call together with the returned ids or the raised error. -/
def add_documents (embed : List (List Char) → Except (List Char) (List (List ℚ)))
    (ids : List (List Char)) (st : List IndexedRecord)
    (chunks : List (List Char))
    (metadata_list : List (List (List Char × MetaValue))) :
    List IndexedRecord × Except (List Char) (List (List Char)) :=
  match embed chunks with
  | Except.error e =>
      (st, Except.error (("Failed to add documents to vector database: ".toList) ++ e))
  | Except.ok embeddings =>
      let sanitized := metadata_list.map sanitize_metadata
      (st ++ (ids.zip (chunks.zip (embeddings.zip sanitized))).map
          (fun x => ⟨x.1, x.2.1, x.2.2.1, x.2.2.2⟩),
        Except.ok ids)

/-- C3: batch ingestion is atomic with respect to embedding failure.  The
embedding call for the whole batch precedes every write to the index, so when
it fails `add_documents` raises the wrapped error and the collection state is
unchanged — no partially added records. -/
theorem add_documents_atomic_on_embedding_failure
    (embed : List (List Char) → Except (List Char) (List (List ℚ)))
    (ids : List (List Char)) (st : List IndexedRecord)
    (chunks : List (List Char))
    (metadata_list : List (List (List Char × MetaValue))) (e : List Char)
    (hfail : embed chunks = Except.error e) :
    (add_documents embed ids st chunks metadata_list).1 = st ∧
      (add_documents embed ids st chunks metadata_list).2 =
        Except.error (("Failed to add documents to vector database: ".toList) ++ e) := by
  unfold add_documents
  rw [hfail]
  exact ⟨rfl, rfl⟩

theorem add_documents_atomic_on_embedding_failure_witness :
    (add_documents (fun _ => Except.error ['x']) [] [] [['a']] []).1 = [] ∧
      (add_documents (fun _ => Except.error ['x']) [] [] [['a']] []).2 =
        Except.error (("Failed to add documents to vector database: ".toList) ++ ['x']) :=
  add_documents_atomic_on_embedding_failure _ [] [] [['a']] [] ['x'] rfl

/-! Embedding of `TextProcessor.chunk_text` (lines 23-33 of
`text_processing.py`).  The splitting itself is delegated to langchain's
`RecursiveCharacterTextSplitter`, whose source is not part of this
repository; the splitter is therefore modelled below from the spec's §4.2
description.  The fuel arguments (instantiated with the text length, which
strictly exceeds the number of possible steps) only make the recursions
structural. -/

/-- Fuel-driven splitting of a list at every occurrence of a non-empty
separator sublist; occurrences of the separator are removed and a split point
takes their place. -/
def splitOnSubAux (sep : List Char) : ℕ → List Char → List (List Char)
  | _, [] => [[]]
  | 0, t => [t]
  | fuel + 1, c :: cs =>
    if sep.isPrefixOf (c :: cs) && !sep.isEmpty then
      [] :: splitOnSubAux sep fuel ((c :: cs).drop sep.length)
    else
      match splitOnSubAux sep fuel cs with
      | [] => [[c]]
      | p :: ps => (c :: p) :: ps

/-- Split a text at every occurrence of a separator sublist. -/
def splitOnSub (sep t : List Char) : List (List Char) :=
  splitOnSubAux sep t.length t

/-- Fuel-driven character-level sliding window: chunks of `size` characters
advancing by `step = size - overlap` characters, so that consecutive chunks
share `overlap` characters of context. -/
def slidingChunksAux (size step : ℕ) : ℕ → List Char → List (List Char)
  | 0, t => [t]
  | fuel + 1, t =>
    if t.length ≤ size ∨ step = 0 then [t]
    else t.take size :: slidingChunksAux size step fuel (t.drop step)

/-- Character-level sliding-window chunking, the splitter's last resort. -/
def slidingChunks (size step : ℕ) (t : List Char) : List (List Char) :=
  slidingChunksAux size step t.length t

/-- Modelled from the spec: langchain's `RecursiveCharacterTextSplitter`
(imported by `text_processing.py` but absent from this repository), per §4.2:
a text that fits within `size` is emitted whole; otherwise it is broken at
the highest-priority separator occurring in it and every piece is split
further with the lower-priority separators, falling back to hard
character-level splitting (the sliding window, which realises the configured
overlap) as the last resort. -/
def recursiveSplit (size step : ℕ) : List (List Char) → List Char → List (List Char)
  | [], t =>
    if t.length ≤ size then [t] else slidingChunks size step t
  | sep :: rest, t =>
    if t.length ≤ size then [t]
    else if (splitOnSub sep t).length ≤ 1 then recursiveSplit size step rest t
    else (splitOnSub sep t).flatMap (recursiveSplit size step rest)

/-- The separator priority list passed to the splitter by `chunk_text`:
paragraph break, line break, space, then the character level. -/
def pySeparators : List (List Char) := [['\n', '\n'], ['\n'], [' ']]

/-- The call `text_splitter.split_text(text)` of `chunk_text`, with the
configured chunk size, chunk overlap and separator priority list. -/
def split_text (size overlap : ℕ) (t : List Char) : List (List Char) :=
  recursiveSplit size (size - overlap) pySeparators t

/-- `TextProcessor.chunk_text` (lines 23-33): split the text, keep the raw
pieces that still contain a non-whitespace character (`if chunk.strip()`),
and pass each kept piece through `clean_text`. -/
def chunk_text (t : List Char) (size overlap : ℕ) : List (List Char) :=
  ((split_text size overlap t).filter
      (fun c => c.any (fun ch => !(isPySpace ch)))).map clean_text

/-! Length bounds for the chunker. -/

theorem collapseWs_length_le : ∀ l : List Char, (collapseWs l).length ≤ l.length := by
  intro l
  induction l using collapseWs.induct with
  | case1 => simp [collapseWs]
  | case2 c h => rw [collapseWs_one_pos h]; simp
  | case3 c h => rw [collapseWs_one_neg h]
  | case4 c d cs h1 h2 ih =>
    rw [collapseWs_two_pos_pos h1 h2]
    simp only [List.length_cons] at ih ⊢
    omega
  | case5 c d cs h1 h2 ih =>
    rw [collapseWs_two_pos_neg h1 h2]
    simp only [List.length_cons] at ih ⊢
    omega
  | case6 c d cs h1 ih =>
    rw [collapseWs_two_neg h1]
    simp only [List.length_cons] at ih ⊢
    omega

theorem collapseNl_length_le : ∀ l : List Char, (collapseNl l).length ≤ l.length := by
  intro l
  induction l using collapseNl.induct with
  | case1 => simp [collapseNl]
  | case2 c => rw [collapseNl]
  | case3 c d cs h ih =>
    rw [collapseNl_two_pos h]
    simp only [List.length_cons] at ih ⊢
    omega
  | case4 c d cs h ih =>
    rw [collapseNl_two_neg h]
    simp only [List.length_cons] at ih ⊢
    omega

theorem clean_text_length_le (l : List Char) : (clean_text l).length ≤ l.length := by
  unfold clean_text
  calc ((pyStrip (collapseNl (collapseWs l))).filter allowedChar).length
      ≤ (pyStrip (collapseNl (collapseWs l))).length :=
        (List.filter_sublist _).length_le
    _ ≤ (collapseNl (collapseWs l)).length := (pyStrip_sublist _).length_le
    _ ≤ (collapseWs l).length := collapseNl_length_le _
    _ ≤ l.length := collapseWs_length_le l

theorem mem_slidingChunksAux_length {size step : ℕ} (hstep : step ≠ 0) :
    ∀ (fuel : ℕ) (t c : List Char), t.length ≤ size + fuel →
      c ∈ slidingChunksAux size step fuel t → c.length ≤ size := by
  intro fuel
  induction fuel with
  | zero =>
    intro t c hlen hc
    simp only [slidingChunksAux, List.mem_singleton] at hc
    subst hc
    simpa using hlen
  | succ fuel ih =>
    intro t c hlen hc
    rw [slidingChunksAux] at hc
    by_cases h : t.length ≤ size ∨ step = 0
    · rw [if_pos h] at hc
      simp only [List.mem_singleton] at hc
      subst hc
      rcases h with h | h
      · exact h
      · exact absurd h hstep
    · rw [if_neg h] at hc
      rcases List.mem_cons.mp hc with h' | h'
      · subst h'
        simp only [List.length_take]
        exact Nat.min_le_left size t.length
      · refine ih (t.drop step) c ?_ h'
        have hs : 1 ≤ step := Nat.one_le_iff_ne_zero.mpr hstep
        simp only [List.length_drop]
        omega

theorem mem_slidingChunks_length {size step : ℕ} (hstep : step ≠ 0)
    {t c : List Char} (hc : c ∈ slidingChunks size step t) : c.length ≤ size :=
  mem_slidingChunksAux_length hstep t.length t c (by omega) hc

theorem mem_recursiveSplit_length {size step : ℕ} (hstep : step ≠ 0) :
    ∀ (seps : List (List Char)) (t c : List Char),
      c ∈ recursiveSplit size step seps t → c.length ≤ size := by
  intro seps
  induction seps with
  | nil =>
    intro t c hc
    rw [recursiveSplit] at hc
    by_cases h : t.length ≤ size
    · rw [if_pos h] at hc
      simp only [List.mem_singleton] at hc
      subst hc
      exact h
    · rw [if_neg h] at hc
      exact mem_slidingChunks_length hstep hc
  | cons sep rest ih =>
    intro t c hc
    rw [recursiveSplit] at hc
    by_cases h : t.length ≤ size
    · rw [if_pos h] at hc
      simp only [List.mem_singleton] at hc
      subst hc
      exact h
    · rw [if_neg h] at hc
      by_cases h1 : (splitOnSub sep t).length ≤ 1
      · rw [if_pos h1] at hc
        exact ih t c hc
      · rw [if_neg h1] at hc
        obtain ⟨p, _, hcp⟩ := List.mem_flatMap.mp hc
        exact ih p c hcp

/-- A chunk is a single atomic token when it contains no separator character:
no newline and no space, so none of the splitter's separators can occur
inside it. -/
def atomicToken (c : List Char) : Bool :=
  c.all (fun ch => !(ch == '\n') && !(ch == ' '))

/-- C4 (spec-modelled splitter): for every text and valid parameters
(`0 < chunkSize`, `0 ≤ chunkOverlap < chunkSize`), every chunk produced by
`chunk_text` has length at most `chunkSize` unless it is a single atomic
token longer than `chunkSize`; with the character-level sliding window as the
splitter's last resort the length bound in fact always holds, so the
oversized-token escape clause is never exercised. -/
theorem chunk_text_length_bound (t : List Char) (size overlap : ℕ)
    (_hsize : 0 < size) (hov : overlap < size) :
    ∀ c ∈ chunk_text t size overlap,
      c.length ≤ size ∨ (size < c.length ∧ atomicToken c = true) := by
  intro c hc
  left
  unfold chunk_text at hc
  obtain ⟨raw, hraw, rfl⟩ := List.mem_map.mp hc
  have hraw2 : raw ∈ split_text size overlap t := List.mem_of_mem_filter hraw
  have hlen : raw.length ≤ size :=
    mem_recursiveSplit_length (by omega) pySeparators t raw hraw2
  exact le_trans (clean_text_length_le raw) hlen

theorem chunk_text_length_bound_witness :
    ['a', 'b'].length ≤ 3 ∨ (3 < ['a', 'b'].length ∧ atomicToken ['a', 'b'] = true) :=
  chunk_text_length_bound ['a', 'b', ' ', 'c', 'd'] 3 1 (by decide) (by decide)
    ['a', 'b'] (by decide)

/-- C5 counterexample: the guard `if chunk.strip()` of `chunk_text` tests the
raw split piece before normalization, so a piece whose characters are all
deleted by `clean_text` yields an empty chunk in the output:
`chunk_text "@@@"` returns a list containing the empty string. -/
theorem chunk_text_emits_empty_chunk : [] ∈ chunk_text ['@', '@', '@'] 10 2 := by
  decide

/-- C5 amended: every chunk returned by `chunk_text` is the `clean_text`
normalization of a raw split piece containing at least one non-whitespace
character — the whitespace-only filter is applied to the raw piece before
normalization, not after it, and a kept piece may still normalize to the
empty string. -/
theorem chunk_text_chunks_from_nonblank_pieces (t : List Char)
    (size overlap : ℕ) :
    ∀ c ∈ chunk_text t size overlap,
      ∃ raw ∈ split_text size overlap t,
        raw.any (fun ch => !(isPySpace ch)) = true ∧ c = clean_text raw := by
  intro c hc
  unfold chunk_text at hc
  obtain ⟨raw, hraw, rfl⟩ := List.mem_map.mp hc
  exact ⟨raw, List.mem_of_mem_filter hraw, (List.mem_filter.mp hraw).2, rfl⟩

theorem chunk_text_chunks_from_nonblank_pieces_witness :
    ∃ raw ∈ split_text 10 2 ['@', '@', '@'],
      raw.any (fun ch => !(isPySpace ch)) = true ∧ ([] : List Char) = clean_text raw :=
  chunk_text_chunks_from_nonblank_pieces ['@', '@', '@'] 10 2 [] (by decide)

/-! Embedding of `TextProcessor.extract_keywords` (lines 36-57 of
`text_processing.py`). -/

/-- Maximal runs of word characters of a text, collected by a structural
scan with an accumulator; these are the spans within which the regex
boundary `\b` cannot match. -/
def wordRunsAux : List Char → List Char → List (List Char)
  | acc, [] => if acc.isEmpty then [] else [acc.reverse]
  | acc, c :: cs =>
    if isPyWord c then wordRunsAux (c :: acc) cs
    else if acc.isEmpty then wordRunsAux [] cs
    else acc.reverse :: wordRunsAux [] cs

/-- The maximal word-character runs of a text, in text order. -/
def wordRuns (t : List Char) : List (List Char) := wordRunsAux [] t

/-- `re.findall(r'\b[a-zA-Z]{3,}\b', text.lower())`: the maximal
word-character runs of the lowercased text that consist purely of letters and
have length at least 3 (a run touching a digit or underscore has no interior
word boundary, so it yields no match). -/
def findWords (t : List Char) : List (List Char) :=
  (wordRuns (t.map Char.toLower)).filter
    (fun r => decide (3 ≤ r.length) && r.all Char.isAlpha)

/-- The fixed stop-word set of `extract_keywords` (lines 41-46). -/
def stop_words : List (List Char) :=
  ["the", "and", "or", "but", "in", "on", "at", "to", "for", "of", "with",
   "by", "is", "are", "was", "were", "be", "been", "have", "has", "had",
   "do", "does", "did", "will", "would", "could", "should", "may", "might",
   "can", "this", "that", "these", "those", "a", "an", "as"].map String.toList

/-- The keyword candidates (line 48): tokens that are not stop words, in
text order. -/
def keywords (t : List Char) : List (List Char) :=
  (findWords t).filter (fun w => !(stop_words.contains w))

/-- One step of the Python dict-based frequency count (lines 51-53): an
existing key's count is incremented in place, a new key is appended at the
end (Python dicts preserve insertion order). -/
def bump : List (List Char × ℕ) → List Char → List (List Char × ℕ)
  | [], w => [(w, 1)]
  | (k, n) :: rest, w =>
    if k = w then (k, n + 1) :: rest else (k, n) :: bump rest w

/-- The `word_freq` dictionary: insertion-ordered association list from
keyword to occurrence count. -/
def word_freq (ws : List (List Char)) : List (List Char × ℕ) :=
  ws.foldl bump []

/-- Stable insertion modelling Python's stable
`sorted(..., key=lambda x: x[1], reverse=True)` (line 56): an element moves
left past exactly the entries with a strictly smaller count, so entries with
equal counts keep their relative order. -/
def insertByCount (p : List Char × ℕ) : List (List Char × ℕ) → List (List Char × ℕ)
  | [] => [p]
  | q :: qs => if q.2 ≤ p.2 then p :: q :: qs else q :: insertByCount p qs

/-- Python's stable sort by descending count. -/
def sortByCountDesc (l : List (List Char × ℕ)) : List (List Char × ℕ) :=
  l.foldr insertByCount []

/-- `TextProcessor.extract_keywords` (lines 36-57): tokenize the lowercased
text into alphabetic runs of length at least 3, drop stop words, count
occurrences in insertion order, sort stably by descending count, truncate to
`max_keywords` entries and return the words. -/
def extract_keywords (t : List Char) (max_keywords : ℕ) : List (List Char) :=
  ((sortByCountDesc (word_freq (keywords t))).take max_keywords).map Prod.fst

/-- Position of the first occurrence of a word in a word list. -/
def firstIdx (w : List Char) : List (List Char) → ℕ
  | [] => 0
  | x :: xs => if x = w then 0 else firstIdx w xs + 1

theorem firstIdx_cons (w x : List Char) (xs : List (List Char)) :
    firstIdx w (x :: xs) = if x = w then 0 else firstIdx w xs + 1 := rfl

/-! Properties of the frequency dictionary. -/

theorem fst_bump_of_mem : ∀ (a : List (List Char × ℕ)) (w : List Char),
    w ∈ a.map Prod.fst → (bump a w).map Prod.fst = a.map Prod.fst := by
  intro a
  induction a with
  | nil => intro w hw; simp at hw
  | cons kv rest ih =>
    intro w hw
    obtain ⟨k, n⟩ := kv
    by_cases hk : k = w
    · subst hk
      rw [bump, if_pos rfl]
      simp
    · rw [bump, if_neg hk]
      simp only [List.map_cons] at hw ⊢
      rcases List.mem_cons.mp hw with h | h
      · exact absurd h.symm hk
      · rw [ih w h]

theorem fst_bump_of_not_mem : ∀ (a : List (List Char × ℕ)) (w : List Char),
    w ∉ a.map Prod.fst → (bump a w).map Prod.fst = a.map Prod.fst ++ [w] := by
  intro a
  induction a with
  | nil => intro w _; simp [bump]
  | cons kv rest ih =>
    intro w hw
    obtain ⟨k, n⟩ := kv
    simp only [List.map_cons, List.mem_cons] at hw
    push_neg at hw
    rw [bump, if_neg (fun h => hw.1 h.symm)]
    simp only [List.map_cons, List.cons_append]
    rw [ih w hw.2]

theorem word_freq_keys_nodup_aux :
    ∀ (l : List (List Char)) (a : List (List Char × ℕ)),
      (a.map Prod.fst).Nodup → ((l.foldl bump a).map Prod.fst).Nodup := by
  intro l
  induction l with
  | nil => intro a h; exact h
  | cons w l' ih =>
    intro a h
    rw [List.foldl_cons]
    refine ih (bump a w) ?_
    by_cases hw : w ∈ a.map Prod.fst
    · rw [fst_bump_of_mem a w hw]; exact h
    · rw [fst_bump_of_not_mem a w hw]
      simp [List.nodup_append, h, hw]

theorem word_freq_keys_nodup (ws : List (List Char)) :
    ((word_freq ws).map Prod.fst).Nodup :=
  word_freq_keys_nodup_aux ws [] (by simp)

theorem insertByCount_perm (p : List Char × ℕ) :
    ∀ m : List (List Char × ℕ), (insertByCount p m).Perm (p :: m) := by
  intro m
  induction m with
  | nil => rw [insertByCount]
  | cons q qs ih =>
    rw [insertByCount]
    by_cases h : q.2 ≤ p.2
    · rw [if_pos h]
    · rw [if_neg h]
      exact (ih.cons q).trans (List.Perm.swap p q qs)

theorem sortByCountDesc_perm :
    ∀ l : List (List Char × ℕ), (sortByCountDesc l).Perm l := by
  intro l
  induction l with
  | nil => exact List.Perm.refl _
  | cons p l' ih =>
    have heq : sortByCountDesc (p :: l') = insertByCount p (sortByCountDesc l') := rfl
    rw [heq]
    exact (insertByCount_perm p _).trans (ih.cons p)

/-- First-match lookup in the association list. -/
def countIn (w : List Char) : List (List Char × ℕ) → Option ℕ
  | [] => none
  | (k, n) :: rest => if k = w then some n else countIn w rest

theorem countIn_bump : ∀ (a : List (List Char × ℕ)) (v w : List Char),
    countIn w (bump a v) =
      if w = v then some (((countIn w a).getD 0) + 1) else countIn w a := by
  intro a
  induction a with
  | nil =>
    intro v w
    by_cases h : w = v
    · subst h; simp [bump, countIn]
    · rw [if_neg h]
      simp only [bump, countIn]
      rw [if_neg (fun hh => h hh.symm)]
  | cons kv rest ih =>
    intro v w
    obtain ⟨k, n⟩ := kv
    by_cases hk : k = v
    · subst hk
      rw [bump, if_pos rfl]
      by_cases hw : w = k
      · subst hw
        rw [if_pos rfl]
        simp [countIn]
      · rw [if_neg hw]
        simp only [countIn]
        rw [if_neg (fun hh => hw hh.symm), if_neg (fun hh => hw hh.symm)]
    · by_cases hkw : k = w
      · subst hkw
        rw [bump, if_neg hk, if_neg (fun hh => hk hh)]
        simp [countIn]
      · rw [bump, if_neg hk]
        simp only [countIn, if_neg hkw]
        exact ih v w

theorem countIn_foldl :
    ∀ (l : List (List Char)) (a : List (List Char × ℕ)) (w : List Char),
      countIn w (l.foldl bump a) =
        if w ∈ l ∨ (countIn w a).isSome then
          some ((countIn w a).getD 0 + l.count w)
        else none := by
  intro l
  induction l with
  | nil =>
    intro a w
    simp only [List.foldl_nil, List.not_mem_nil, false_or, List.count_nil,
      Nat.add_zero]
    cases h : countIn w a <;> simp [h]
  | cons v l' ih =>
    intro a w
    rw [List.foldl_cons, ih (bump a v) w, countIn_bump]
    by_cases hwv : w = v
    · subst hwv
      rw [if_pos rfl]
      rw [if_pos (Or.inr (by simp))]
      rw [if_pos (Or.inl (List.mem_cons_self w l'))]
      rw [List.count_cons_self]
      simp only [Option.getD_some, Option.some.injEq]
      omega
    · rw [if_neg hwv]
      rw [List.count_cons_of_ne hwv]
      have hmem : (w ∈ v :: l') ↔ (w ∈ l') := by
        simp [List.mem_cons, hwv]
      by_cases hc : w ∈ l' ∨ (countIn w a).isSome
      · rw [if_pos hc, if_pos (by rw [hmem]; exact hc)]
      · rw [if_neg hc, if_neg (by rw [hmem]; exact hc)]

theorem countIn_eq_some_of_mem :
    ∀ {a : List (List Char × ℕ)} {p : List Char × ℕ},
      (a.map Prod.fst).Nodup → p ∈ a → countIn p.1 a = some p.2 := by
  intro a
  induction a with
  | nil => intro p _ hp; simp at hp
  | cons kv rest ih =>
    intro p hnd hp
    obtain ⟨k, n⟩ := kv
    rcases List.mem_cons.mp hp with h | h
    · subst h
      simp [countIn]
    · simp only [List.map_cons, List.nodup_cons] at hnd
      have hk : ¬ k = p.1 := by
        intro hh
        exact hnd.1 (hh ▸ (List.mem_map.mpr ⟨p, h, rfl⟩))
      simp only [countIn, if_neg hk]
      exact ih hnd.2 h

theorem mem_word_freq {ws : List (List Char)} {p : List Char × ℕ}
    (hp : p ∈ word_freq ws) : p.1 ∈ ws ∧ p.2 = ws.count p.1 := by
  have hnd := word_freq_keys_nodup ws
  have hc := countIn_eq_some_of_mem hnd hp
  rw [word_freq, countIn_foldl] at hc
  by_cases hmem : p.1 ∈ ws
  · refine ⟨hmem, ?_⟩
    rw [if_pos (Or.inl hmem)] at hc
    simp only [countIn, Option.getD_none, Nat.zero_add, Option.some.injEq] at hc
    exact hc.symm
  · exfalso
    rw [if_neg ?_] at hc
    · exact Option.noConfusion hc
    · rintro (h | h)
      · exact hmem h
      · simp [countIn] at h

/-! First-occurrence order of the dictionary keys. -/

theorem firstIdx_append_of_mem {w : List Char} :
    ∀ {pre : List (List Char)} (l₂ : List (List Char)), w ∈ pre →
      firstIdx w (pre ++ l₂) = firstIdx w pre := by
  intro pre
  induction pre with
  | nil => intro l₂ h; simp at h
  | cons x xs ih =>
    intro l₂ h
    by_cases hx : x = w
    · rw [List.cons_append, firstIdx_cons, firstIdx_cons, if_pos hx, if_pos hx]
    · rw [List.cons_append, firstIdx_cons, firstIdx_cons, if_neg hx, if_neg hx]
      rcases List.mem_cons.mp h with h' | h'
      · exact absurd h'.symm hx
      · rw [ih l₂ h']

theorem firstIdx_lt_length_of_mem {w : List Char} :
    ∀ {pre : List (List Char)}, w ∈ pre → firstIdx w pre < pre.length := by
  intro pre
  induction pre with
  | nil => intro h; simp at h
  | cons x xs ih =>
    intro h
    by_cases hx : x = w
    · rw [firstIdx_cons, if_pos hx]
      simp
    · rw [firstIdx_cons, if_neg hx, List.length_cons]
      rcases List.mem_cons.mp h with h' | h'
      · exact absurd h'.symm hx
      · exact Nat.succ_lt_succ (ih h')

theorem firstIdx_append_of_not_mem {w : List Char} :
    ∀ {pre : List (List Char)} (l₂ : List (List Char)), w ∉ pre →
      firstIdx w (pre ++ l₂) = pre.length + firstIdx w l₂ := by
  intro pre
  induction pre with
  | nil => intro l₂ _; simp [firstIdx]
  | cons x xs ih =>
    intro l₂ h
    have hx : ¬ x = w := fun hh => h (by simp [hh])
    rw [List.cons_append, firstIdx_cons, if_neg hx, List.length_cons,
      ih l₂ (fun hh => h (List.mem_cons_of_mem _ hh))]
    omega

theorem firstIdx_cons_self (w : List Char) (l : List (List Char)) :
    firstIdx w (w :: l) = 0 := by
  simp [firstIdx]

theorem word_freq_keys_ordered_aux (L : List (List Char)) :
    ∀ (suf pre : List (List Char)) (a : List (List Char × ℕ)),
      L = pre ++ suf →
      (∀ x, x ∈ a.map Prod.fst ↔ x ∈ pre) →
      (a.map Prod.fst).Pairwise (fun x y => firstIdx x L < firstIdx y L) →
      ((suf.foldl bump a).map Prod.fst).Pairwise
        (fun x y => firstIdx x L < firstIdx y L) := by
  intro suf
  induction suf with
  | nil =>
    intro pre a _ _ hpw
    simpa using hpw
  | cons w suf' ih =>
    intro pre a hL hkeys hpw
    rw [List.foldl_cons]
    by_cases hw : w ∈ a.map Prod.fst
    · refine ih (pre ++ [w]) (bump a w) (by rw [hL]; simp) ?_ ?_
      · intro x
        rw [fst_bump_of_mem a w hw, hkeys x]
        constructor
        · intro h; exact List.mem_append_left _ h
        · intro h
          rcases List.mem_append.mp h with h | h
          · exact h
          · simp only [List.mem_singleton] at h
            exact h ▸ ((hkeys w).mp hw)
      · rw [fst_bump_of_mem a w hw]; exact hpw
    · refine ih (pre ++ [w]) (bump a w) (by rw [hL]; simp) ?_ ?_
      · intro x
        rw [fst_bump_of_not_mem a w hw]
        constructor
        · intro h
          rcases List.mem_append.mp h with h | h
          · exact List.mem_append_left _ ((hkeys x).mp h)
          · exact List.mem_append_right _ h
        · intro h
          rcases List.mem_append.mp h with h | h
          · exact List.mem_append_left _ ((hkeys x).mpr h)
          · exact List.mem_append_right _ h
      · rw [fst_bump_of_not_mem a w hw, List.pairwise_append]
        refine ⟨hpw, List.pairwise_singleton _ _, ?_⟩
        intro x hx y hy
        simp only [List.mem_singleton] at hy
        rw [hy]
        have hxpre : x ∈ pre := (hkeys x).mp hx
        have hwpre : w ∉ pre := fun hc => hw ((hkeys w).mpr hc)
        rw [hL, firstIdx_append_of_mem _ hxpre,
          firstIdx_append_of_not_mem _ hwpre, firstIdx_cons_self]
        have h1 : firstIdx x pre < pre.length := firstIdx_lt_length_of_mem hxpre
        omega

theorem word_freq_keys_ordered (ws : List (List Char)) :
    ((word_freq ws).map Prod.fst).Pairwise
      (fun x y => firstIdx x ws < firstIdx y ws) :=
  word_freq_keys_ordered_aux ws ws [] [] rfl (by simp) (by simp)

/-! Sortedness and stability of the stable descending sort. -/

theorem insertByCount_pairwise {g : (List Char × ℕ) → (List Char × ℕ) → Prop}
    {p : List Char × ℕ} :
    ∀ {m : List (List Char × ℕ)},
      m.Pairwise (fun x y => y.2 ≤ x.2 ∧ (x.2 = y.2 → g x y)) →
      (∀ q ∈ m, p.2 = q.2 → g p q) →
      (insertByCount p m).Pairwise (fun x y => y.2 ≤ x.2 ∧ (x.2 = y.2 → g x y)) := by
  intro m
  induction m with
  | nil =>
    intro _ _
    rw [insertByCount]
    exact List.pairwise_singleton _ _
  | cons q qs ih =>
    intro hm hp
    rw [List.pairwise_cons] at hm
    rw [insertByCount]
    by_cases hq : q.2 ≤ p.2
    · rw [if_pos hq, List.pairwise_cons]
      constructor
      · intro y hy
        rcases List.mem_cons.mp hy with rfl | hy'
        · exact ⟨hq, hp y (List.mem_cons_self _ _)⟩
        · have hqy := hm.1 y hy'
          exact ⟨le_trans hqy.1 hq, fun hpy => hp y (List.mem_cons_of_mem _ hy') hpy⟩
      · rw [List.pairwise_cons]
        exact ⟨hm.1, hm.2⟩
    · rw [if_neg hq, List.pairwise_cons]
      constructor
      · intro y hy
        rcases List.mem_cons.mp ((insertByCount_perm p qs).mem_iff.mp hy) with
          rfl | hy'
        · exact ⟨le_of_not_le hq, fun hqp => absurd hqp.le hq⟩
        · exact hm.1 y hy'
      · exact ih hm.2 (fun r hr he => hp r (List.mem_cons_of_mem _ hr) he)

theorem sortByCountDesc_pairwise {g : (List Char × ℕ) → (List Char × ℕ) → Prop} :
    ∀ {l : List (List Char × ℕ)},
      l.Pairwise (fun x y => x.2 = y.2 → g x y) →
      (sortByCountDesc l).Pairwise
        (fun x y => y.2 ≤ x.2 ∧ (x.2 = y.2 → g x y)) := by
  intro l
  induction l with
  | nil =>
    intro _
    exact List.Pairwise.nil
  | cons p l' ih =>
    intro hl
    rw [List.pairwise_cons] at hl
    have heq : sortByCountDesc (p :: l') = insertByCount p (sortByCountDesc l') := rfl
    rw [heq]
    refine insertByCount_pairwise (ih hl.2) ?_
    intro q hq he
    exact hl.1 q ((sortByCountDesc_perm l').mem_iff.mp hq) he

/-! Claim theorems about `extract_keywords`. -/

/-- C8: `extract_keywords` returns at most `max_keywords` entries, with no
duplicate entry and no word of the fixed stop-word set. -/
theorem extract_keywords_contract (t : List Char) (k : ℕ) :
    (extract_keywords t k).length ≤ k ∧ (extract_keywords t k).Nodup ∧
      ∀ w ∈ extract_keywords t k, stop_words.contains w = false := by
  have hnd := word_freq_keys_nodup (keywords t)
  have hperm : ((sortByCountDesc (word_freq (keywords t))).map Prod.fst).Perm
      ((word_freq (keywords t)).map Prod.fst) :=
    (sortByCountDesc_perm _).map Prod.fst
  refine ⟨?_, ?_, ?_⟩
  · rw [extract_keywords, List.length_map]
    exact List.length_take_le _ _
  · rw [extract_keywords]
    have h1 : ((sortByCountDesc (word_freq (keywords t))).map Prod.fst).Nodup :=
      hperm.nodup_iff.mpr hnd
    have h2 : (((sortByCountDesc (word_freq (keywords t))).take k).map
        Prod.fst).Sublist ((sortByCountDesc (word_freq (keywords t))).map Prod.fst) :=
      (List.take_sublist _ _).map Prod.fst
    exact h1.sublist h2
  · intro w hw
    rw [extract_keywords] at hw
    obtain ⟨p, hp, rfl⟩ := List.mem_map.mp hw
    have hp2 : p ∈ sortByCountDesc (word_freq (keywords t)) :=
      List.mem_of_mem_take hp
    have hp3 : p ∈ word_freq (keywords t) :=
      (sortByCountDesc_perm _).mem_iff.mp hp2
    have hp4 : p.1 ∈ keywords t := (mem_word_freq hp3).1
    have h5 := (List.mem_filter.mp hp4).2
    simpa using h5

theorem extract_keywords_contract_witness :
    (extract_keywords ("cat dog cat".toList) 5).length ≤ 5 ∧
      (extract_keywords ("cat dog cat".toList) 5).Nodup ∧
      ∀ w ∈ extract_keywords ("cat dog cat".toList) 5,
        stop_words.contains w = false :=
  extract_keywords_contract ("cat dog cat".toList) 5

/-- C9: `extract_keywords` ranks by descending frequency, and among tokens of
equal frequency the token whose first occurrence in the (stop-word-filtered,
text-ordered) keyword stream comes earlier appears earlier: Python's
`sorted(..., reverse=True)` is stable, keeping insertion order — which is
first-occurrence order — on ties. -/
theorem extract_keywords_ranking (t : List Char) (k : ℕ) :
    (extract_keywords t k).Pairwise (fun a b =>
      (keywords t).count b ≤ (keywords t).count a ∧
      ((keywords t).count a = (keywords t).count b →
        firstIdx a (keywords t) < firstIdx b (keywords t))) := by
  have hord := word_freq_keys_ordered (keywords t)
  have hord2 : (word_freq (keywords t)).Pairwise
      (fun p q => firstIdx p.1 (keywords t) < firstIdx q.1 (keywords t)) :=
    List.Pairwise.of_map Prod.fst (fun _ _ h => h) hord
  have hsorted : (sortByCountDesc (word_freq (keywords t))).Pairwise
      (fun x y => y.2 ≤ x.2 ∧ (x.2 = y.2 →
        firstIdx x.1 (keywords t) < firstIdx y.1 (keywords t))) := by
    refine sortByCountDesc_pairwise ?_
    refine hord2.imp ?_
    intro a b h _
    exact h
  have htake := hsorted.sublist (List.take_sublist k _)
  rw [extract_keywords, List.pairwise_map]
  refine htake.imp_of_mem ?_
  intro p q hp hq hpq
  have hpf : p ∈ word_freq (keywords t) :=
    (sortByCountDesc_perm _).mem_iff.mp (List.mem_of_mem_take hp)
  have hqf : q ∈ word_freq (keywords t) :=
    (sortByCountDesc_perm _).mem_iff.mp (List.mem_of_mem_take hq)
  have hpc := (mem_word_freq hpf).2
  have hqc := (mem_word_freq hqf).2
  constructor
  · rw [← hpc, ← hqc]
    exact hpq.1
  · intro hce
    exact hpq.2 (by rw [hpc, hqc]; exact hce)

theorem extract_keywords_ranking_witness :
    (extract_keywords ("cat dog cat".toList) 5).Pairwise (fun a b =>
      (keywords ("cat dog cat".toList)).count b ≤
        (keywords ("cat dog cat".toList)).count a ∧
      ((keywords ("cat dog cat".toList)).count a =
          (keywords ("cat dog cat".toList)).count b →
        firstIdx a (keywords ("cat dog cat".toList)) <
          firstIdx b (keywords ("cat dog cat".toList)))) :=
  extract_keywords_ranking ("cat dog cat".toList) 5

end RagApp
